import Mathlib

/-!
Verification of the GRANDPA primitives layer
(`core/finality-grandpa/primitives/src/lib.rs`).

The Rust file declares the `GrandpaApi` runtime interface (digest-change
extraction, authority queries, equivocation-report construction), the
`GRANDPA_ENGINE_ID` constant, the `ScheduledChange` and
`GrandpaEquivocationProof` data types (with derived `Encode`/`Decode`
instances), and type aliases for authorities and equivocations.  The
implementations of the declared runtime methods, the change scheduler and
the equivocation validator live outside this crate; where a property
concerns them, the corresponding definition below is modelled from the
specification and is marked as such in its doc comment.

Machine integers are modelled as `Nat` with explicit bounds (`u64` values
are below `2 ^ 64`); byte strings are lists of naturals below 256; the
SCALE codec used by the derived `Encode`/`Decode` instances is given an
executable model (little-endian fixed-width integers, compact
length-prefixed sequences, raw fixed-size byte arrays).
-/

namespace Grandpa

/-- A byte string: a list of naturals, each intended to be below 256. -/
abbrev Bytes := List Nat

/-- Little-endian byte decomposition: `leBytes k n` is the `k`-byte
little-endian encoding of `n % 2 ^ (8 * k)`.  This is how the SCALE codec
encodes fixed-width unsigned integers (a `u64` is `leBytes 8`). -/
def leBytes : Nat → Nat → Bytes
  | 0, _ => []
  | k + 1, n => n % 256 :: leBytes k (n / 256)

/-- Read `k` bytes little-endian from the front of a byte string, returning
the decoded value and the remaining bytes. -/
def readLE : Nat → Bytes → Option (Nat × Bytes)
  | 0, l => some (0, l)
  | _ + 1, [] => none
  | k + 1, b :: l =>
    match readLE k l with
    | some (v, r) => some (b + 256 * v, r)
    | none => none

theorem leBytes_length (k n : Nat) : (leBytes k n).length = k := by
  induction k generalizing n with
  | zero => rfl
  | succ k ih => simp [leBytes, ih]

theorem readLE_leBytes (k : Nat) :
    ∀ n : Nat, n < 2 ^ (8 * k) →
      ∀ rest : Bytes, readLE k (leBytes k n ++ rest) = some (n, rest) := by
  induction k with
  | zero =>
    intro n hn rest
    interval_cases n
    rfl
  | succ k ih =>
    intro n hn rest
    have hpow : 2 ^ (8 * (k + 1)) = 2 ^ (8 * k) * 256 := by
      rw [show 8 * (k + 1) = 8 * k + 8 by ring, pow_add]
      norm_num
    have hdiv : n / 256 < 2 ^ (8 * k) := by
      rw [hpow] at hn
      omega
    have hx : n % 256 + 256 * (n / 256) = n := by omega
    simp only [leBytes, List.cons_append, readLE, List.append_eq,
      ih (n / 256) hdiv rest, hx]

/-- SCALE compact encoding of an unsigned integer (as used for the length
prefix of encoded `Vec`s).  Single-byte mode below 64, two-byte mode below
`2 ^ 14`, four-byte mode below `2 ^ 30`, big-integer mode above (for values
below `2 ^ 32` the big-integer mode payload is exactly four bytes). -/
def compactEncode (n : Nat) : Bytes :=
  if n < 64 then leBytes 1 (4 * n)
  else if n < 2 ^ 14 then leBytes 2 (4 * n + 1)
  else if n < 2 ^ 30 then leBytes 4 (4 * n + 2)
  else 3 :: leBytes 4 n

/-- SCALE compact decoding: inspects the mode bits (the low two bits of the
first byte) and reads the corresponding number of bytes. -/
def compactDecode (l : Bytes) : Option (Nat × Bytes) :=
  match l with
  | [] => none
  | b :: t =>
    if b % 4 = 0 then some (b / 4, t)
    else if b % 4 = 1 then
      (readLE 2 (b :: t)).map (fun p => (p.1 / 4, p.2))
    else if b % 4 = 2 then
      (readLE 4 (b :: t)).map (fun p => (p.1 / 4, p.2))
    else
      readLE (b / 4 + 4) t

theorem compactDecode_two (v : Nat) (hm : v % 4 = 1) (hv : v < 2 ^ 16)
    (rest : Bytes) :
    compactDecode (leBytes 2 v ++ rest) = some (v / 4, rest) := by
  have hread := readLE_leBytes 2 v (by omega) rest
  have hshape : leBytes 2 v ++ rest = v % 256 :: (leBytes 1 (v / 256) ++ rest) := rfl
  rw [hshape] at hread ⊢
  have hm1 : v % 256 % 4 = 1 := by omega
  simp only [compactDecode, hm1, reduceIte, hread, Option.map_some]
  norm_num

theorem compactDecode_four (v : Nat) (hm : v % 4 = 2) (hv : v < 2 ^ 32)
    (rest : Bytes) :
    compactDecode (leBytes 4 v ++ rest) = some (v / 4, rest) := by
  have hread := readLE_leBytes 4 v (by omega) rest
  have hshape : leBytes 4 v ++ rest = v % 256 :: (leBytes 3 (v / 256) ++ rest) := rfl
  rw [hshape] at hread ⊢
  have hm2 : v % 256 % 4 = 2 := by omega
  simp only [compactDecode, hm2, reduceIte, hread, Option.map_some]
  norm_num

theorem compact_roundtrip (n : Nat) (hn : n < 2 ^ 32) (rest : Bytes) :
    compactDecode (compactEncode n ++ rest) = some (n, rest) := by
  by_cases h1 : n < 64
  · have hb : 4 * n % 256 = 4 * n := by omega
    simp only [compactEncode, if_pos h1, leBytes, List.cons_append, List.nil_append,
      compactDecode, hb]
    have hm : 4 * n % 4 = 0 := by omega
    have hq : 4 * n / 4 = n := by omega
    simp only [hm, reduceIte, hq]
  · by_cases h2 : n < 2 ^ 14
    · rw [compactEncode, if_neg h1, if_pos h2,
        compactDecode_two (4 * n + 1) (by omega) (by omega) rest]
      have hq : (4 * n + 1) / 4 = n := by omega
      rw [hq]
    · by_cases h3 : n < 2 ^ 30
      · rw [compactEncode, if_neg h1, if_neg h2, if_pos h3,
          compactDecode_four (4 * n + 2) (by omega) (by omega) rest]
        have hq : (4 * n + 2) / 4 = n := by omega
        rw [hq]
      · have hread := readLE_leBytes 4 n (by omega) rest
        simp only [compactEncode, if_neg h1, if_neg h2, if_neg h3, List.cons_append,
          compactDecode]
        norm_num
        exact hread

/-- Identity of a Grandpa authority (`pub type AuthorityId =
substrate_primitives::ed25519::Public;`): an ed25519 public key, i.e. a
32-byte string. -/
abbrev AuthorityId := {l : Bytes // l.length = 32 ∧ ∀ b ∈ l, b < 256}

/-- The weight of an authority (`pub type AuthorityWeight = u64;`), a `u64`
value. -/
abbrev AuthorityWeight := Nat

/-- SCALE encoding of an `AuthorityId`: a fixed-size byte array encodes as
its raw bytes, with no length prefix. -/
def encodeAuthorityId (a : AuthorityId) : Bytes := a.val

/-- SCALE decoding of an `AuthorityId`: read exactly 32 bytes. -/
def decodeAuthorityId (l : Bytes) : Option (AuthorityId × Bytes) :=
  if h : (l.take 32).length = 32 ∧ ∀ b ∈ l.take 32, b < 256 then
    some (⟨l.take 32, h⟩, l.drop 32)
  else none

theorem decodeAuthorityId_encode (a : AuthorityId) (rest : Bytes) :
    decodeAuthorityId (encodeAuthorityId a ++ rest) = some (a, rest) := by
  obtain ⟨l, hlen, hlt⟩ := a
  have htake : (l ++ rest).take 32 = l := by
    rw [← hlen]
    exact List.take_left l rest
  have hdrop : (l ++ rest).drop 32 = rest := by
    rw [← hlen]
    exact List.drop_left l rest
  simp only [encodeAuthorityId, decodeAuthorityId, htake, hdrop]
  rw [dif_pos ⟨hlen, hlt⟩]

/-- SCALE encoding of one `(AuthorityId, u64)` entry of
`next_authorities`: the id's raw bytes followed by the weight as a
little-endian `u64`. -/
def encodeAuthorityPair (p : AuthorityId × AuthorityWeight) : Bytes :=
  encodeAuthorityId p.1 ++ leBytes 8 p.2

/-- SCALE decoding of one `(AuthorityId, u64)` entry. -/
def decodeAuthorityPair (l : Bytes) : Option ((AuthorityId × AuthorityWeight) × Bytes) :=
  match decodeAuthorityId l with
  | some (a, r) =>
    match readLE 8 r with
    | some (w, r2) => some ((a, w), r2)
    | none => none
  | none => none

theorem decodeAuthorityPair_encode (p : AuthorityId × AuthorityWeight)
    (hw : p.2 < 2 ^ 64) (rest : Bytes) :
    decodeAuthorityPair (encodeAuthorityPair p ++ rest) = some (p, rest) := by
  obtain ⟨a, w⟩ := p
  have hw8 : w < 2 ^ (8 * 8) := by
    have h2 : (2 : ℕ) ^ (8 * 8) = 2 ^ 64 := by norm_num
    rw [h2]
    simpa using hw
  simp only [encodeAuthorityPair, List.append_assoc, decodeAuthorityPair,
    decodeAuthorityId_encode a (leBytes 8 w ++ rest), readLE_leBytes 8 w hw8 rest]

/-- Concatenated SCALE encodings of the elements of a list (the payload of
an encoded `Vec`, after its compact length prefix). -/
def encodeElems (enc : α → Bytes) : List α → Bytes
  | [] => []
  | a :: t => enc a ++ encodeElems enc t

/-- SCALE encoding of a `Vec`: compact-encoded length then the elements. -/
def encodeListWith (enc : α → Bytes) (l : List α) : Bytes :=
  compactEncode l.length ++ encodeElems enc l

/-- Decode a known number of SCALE-encoded elements from the front of a
byte string. -/
def decodeCount (dec : Bytes → Option (α × Bytes)) : Nat → Bytes → Option (List α × Bytes)
  | 0, l => some ([], l)
  | k + 1, l =>
    match dec l with
    | some (a, r) =>
      match decodeCount dec k r with
      | some (as, r2) => some (a :: as, r2)
      | none => none
    | none => none

/-- SCALE decoding of a `Vec`: read the compact length prefix, then that
many elements. -/
def decodeListWith (dec : Bytes → Option (α × Bytes)) (l : Bytes) :
    Option (List α × Bytes) :=
  match compactDecode l with
  | some (n, r) => decodeCount dec n r
  | none => none

theorem decodeCount_encode (dec : Bytes → Option (α × Bytes)) (enc : α → Bytes)
    (l : List α) (hlaw : ∀ a ∈ l, ∀ rest, dec (enc a ++ rest) = some (a, rest))
    (rest : Bytes) :
    decodeCount dec l.length (encodeElems enc l ++ rest) = some (l, rest) := by
  induction l with
  | nil => simp [decodeCount, encodeElems]
  | cons a t ih =>
    have hmem : a ∈ a :: t := List.mem_cons_self a t
    have hlawt : ∀ x ∈ t, ∀ r, dec (enc x ++ r) = some (x, r) := by
      intro x hx r
      exact hlaw x (List.mem_cons_of_mem a hx) r
    simp only [encodeElems, List.append_assoc, List.length_cons, decodeCount,
      hlaw a hmem (encodeElems enc t ++ rest), ih hlawt]

theorem decodeListWith_encode (dec : Bytes → Option (α × Bytes)) (enc : α → Bytes)
    (l : List α) (hlaw : ∀ a ∈ l, ∀ rest, dec (enc a ++ rest) = some (a, rest))
    (hlen : l.length < 2 ^ 32) (rest : Bytes) :
    decodeListWith dec (encodeListWith enc l ++ rest) = some (l, rest) := by
  simp only [encodeListWith, List.append_assoc, decodeListWith,
    compact_roundtrip l.length hlen (encodeElems enc l ++ rest),
    decodeCount_encode dec enc l hlaw rest]

/-- A scheduled change of authority set (`pub struct ScheduledChange<N>`),
instantiated at `N := NumberFor<Block> := u64`: the new authorities with
their weights, and the number of blocks to delay. -/
structure ScheduledChange where
  next_authorities : List (AuthorityId × AuthorityWeight)
  delay : Nat
deriving DecidableEq

/-- The bounds the Rust representation imposes on a `ScheduledChange`
value: the delay and every weight fit in a `u64`, the vector length fits in
a `u32` (as the SCALE compact length prefix requires). -/
def ScheduledChange.wf (c : ScheduledChange) : Prop :=
  c.delay < 2 ^ 64 ∧ c.next_authorities.length < 2 ^ 32 ∧
    ∀ p ∈ c.next_authorities, p.2 < 2 ^ 64

instance (c : ScheduledChange) : Decidable c.wf := by
  unfold ScheduledChange.wf
  infer_instance

/-- The derived SCALE `Encode` for `ScheduledChange`: fields in declaration
order, `next_authorities` then `delay`. -/
def encodeScheduledChange (c : ScheduledChange) : Bytes :=
  encodeListWith encodeAuthorityPair c.next_authorities ++ leBytes 8 c.delay

/-- The derived SCALE `Decode` for `ScheduledChange`. -/
def decodeScheduledChange (l : Bytes) : Option (ScheduledChange × Bytes) :=
  match decodeListWith decodeAuthorityPair l with
  | some (as, r) =>
    match readLE 8 r with
    | some (d, r2) => some ({ next_authorities := as, delay := d }, r2)
    | none => none
  | none => none

theorem decodeScheduledChange_encode (c : ScheduledChange) (h : c.wf)
    (rest : Bytes) :
    decodeScheduledChange (encodeScheduledChange c ++ rest) = some (c, rest) := by
  obtain ⟨hd, hlen, hws⟩ := h
  have hd8 : c.delay < 2 ^ (8 * 8) := by norm_num at hd ⊢; omega
  have hlaw : ∀ p ∈ c.next_authorities, ∀ r,
      decodeAuthorityPair (encodeAuthorityPair p ++ r) = some (p, r) := by
    intro p hp r
    exact decodeAuthorityPair_encode p (hws p hp) r
  simp only [encodeScheduledChange, List.append_assoc, decodeScheduledChange,
    decodeListWith_encode decodeAuthorityPair encodeAuthorityPair
      c.next_authorities hlaw hlen (leBytes 8 c.delay ++ rest),
    readLE_leBytes 8 c.delay hd8 rest]

/-- A self-describing equivocation proof wrapper
(`pub struct GrandpaEquivocationProof<E>`): set id, round, and the wrapped
equivocation. -/
structure GrandpaEquivocationProof (E : Type) where
  set_id : Nat
  round : Nat
  equivocation : E
deriving DecidableEq

/-- The derived SCALE `Encode` for `GrandpaEquivocationProof<E>`: fields in
declaration order — `set_id`, `round`, then the wrapped equivocation via
its own codec. -/
def encodeGrandpaEquivocationProof (encE : E → Bytes)
    (p : GrandpaEquivocationProof E) : Bytes :=
  leBytes 8 p.set_id ++ leBytes 8 p.round ++ encE p.equivocation

/-- The derived SCALE `Decode` for `GrandpaEquivocationProof<E>`. -/
def decodeGrandpaEquivocationProof (decE : Bytes → Option (E × Bytes))
    (l : Bytes) : Option (GrandpaEquivocationProof E × Bytes) :=
  match readLE 8 l with
  | some (s, r1) =>
    match readLE 8 r1 with
    | some (rd, r2) =>
      match decE r2 with
      | some (e, r3) => some ({ set_id := s, round := rd, equivocation := e }, r3)
      | none => none
    | none => none
  | none => none

theorem decodeGrandpaEquivocationProof_encode (encE : E → Bytes)
    (decE : Bytes → Option (E × Bytes))
    (hlaw : ∀ e rest, decE (encE e ++ rest) = some (e, rest))
    (p : GrandpaEquivocationProof E) (hs : p.set_id < 2 ^ 64)
    (hr : p.round < 2 ^ 64) (rest : Bytes) :
    decodeGrandpaEquivocationProof decE (encodeGrandpaEquivocationProof encE p ++ rest) =
      some (p, rest) := by
  have hs8 : p.set_id < 2 ^ (8 * 8) := by norm_num at hs ⊢; omega
  have hr8 : p.round < 2 ^ (8 * 8) := by norm_num at hr ⊢; omega
  simp only [encodeGrandpaEquivocationProof, List.append_assoc,
    decodeGrandpaEquivocationProof,
    readLE_leBytes 8 p.set_id hs8 (leBytes 8 p.round ++ (encE p.equivocation ++ rest)),
    readLE_leBytes 8 p.round hr8 (encE p.equivocation ++ rest),
    hlaw p.equivocation rest]

/-- The `ConsensusEngineId` of GRANDPA
(`pub const GRANDPA_ENGINE_ID: ConsensusEngineId = *b"FRNK";`), a `[u8; 4]`
holding the ASCII bytes of `FRNK`. -/
def GRANDPA_ENGINE_ID : Bytes := [70, 82, 78, 75]

/-- Modelled from the spec: the digest item payloads relevant to this
gadget (the concrete `DigestItem` type of `sr_primitives` is outside this
crate).  An item either signals a pending change, signals a forced change
(carrying the median last-finalized block number at signal time), or is
opaque foreign data. -/
inductive DigestItemKind where
  | pendingChange (change : ScheduledChange)
  | forcedChange (median : Nat) (change : ScheduledChange)
  | other (payload : Bytes)
deriving DecidableEq

/-- Modelled from the spec: one digest item — an engine tag plus a typed
payload. -/
structure DigestItem where
  engine : Bytes
  kind : DigestItemKind
deriving DecidableEq

/-- Modelled from the spec: a block's digest, an ordered sequence of typed
items. -/
abbrev Digest := List DigestItem

/-- The pending-change signal carried by a single digest item, if any: the
item must carry this gadget's engine tag and a pending-change payload. -/
def pendingIn (item : DigestItem) : Option ScheduledChange :=
  if item.engine = GRANDPA_ENGINE_ID then
    match item.kind with
    | .pendingChange c => some c
    | _ => none
  else none

/-- The forced-change signal carried by a single digest item, if any. -/
def forcedIn (item : DigestItem) : Option (Nat × ScheduledChange) :=
  if item.engine = GRANDPA_ENGINE_ID then
    match item.kind with
    | .forcedChange m c => some (m, c)
    | _ => none
  else none

/-- Modelled from the spec: the caller's record of an already-outstanding
authority-set change — its delay and how much of it has elapsed. -/
structure OutstandingChange where
  delay : Nat
  elapsed : Nat
deriving DecidableEq

/-- Modelled from the spec: a new signal is suppressed exactly when an
earlier change is outstanding and its delay has not fully elapsed. -/
def changeSuppressed : Option OutstandingChange → Bool
  | none => false
  | some o => decide (o.elapsed < o.delay)

/-- Modelled from the spec: `grandpa_pending_change` — the runtime-side
implementation is outside this crate; the crate only declares its
signature and contract.  Scans the digest for the first item carrying this
gadget's engine tag and a pending-change payload (first-occurrence-wins
precedence), returning `none` when a change is already outstanding and not
fully delayed. -/
def grandpa_pending_change (outstanding : Option OutstandingChange)
    (digest : Digest) : Option ScheduledChange :=
  if changeSuppressed outstanding then none
  else digest.findSome? pendingIn

/-- Modelled from the spec: `grandpa_forced_change` — the runtime-side
implementation is outside this crate.  Same scan and suppression as
`grandpa_pending_change`, keyed off the forced-change payload kind, and
returning the median last-finalized block number recorded at signal time
alongside the change. -/
def grandpa_forced_change (outstanding : Option OutstandingChange)
    (digest : Digest) : Option (Nat × ScheduledChange) :=
  if changeSuppressed outstanding then none
  else digest.findSome? forcedIn

/-- Modelled from the spec: the runtime call as made on one node, which
also has some node-local external state `st` in scope; per the contract
that state must not influence the result, so the extraction ignores it. -/
def grandpa_pending_change_on (_st : σ) (outstanding : Option OutstandingChange)
    (digest : Digest) : Option ScheduledChange :=
  grandpa_pending_change outstanding digest

/-- Modelled from the spec: the node-level forced-change call, as
`grandpa_pending_change_on`. -/
def grandpa_forced_change_on (_st : σ) (outstanding : Option OutstandingChange)
    (digest : Digest) : Option (Nat × ScheduledChange) :=
  grandpa_forced_change outstanding digest

/-- Modelled from the spec: the pending track of the change scheduler —
the scheduler itself is outside this crate.  Either no change is
outstanding, or one is, together with its elapsed finalized-block count. -/
inductive SchedulerState where
  | idle
  | pendingOutstanding (change : ScheduledChange) (elapsed : Nat)
deriving DecidableEq

/-- Modelled from the spec: processing one newly finalized block on the
pending track.  An outstanding change activates exactly when its elapsed
counter has reached its delay (so a delay of 0 activates on the very next
finalized block after signaling); otherwise the counter advances.  Returns
the new state and the authority set to install, if any. -/
def stepFinalized :
    SchedulerState → SchedulerState × Option (List (AuthorityId × AuthorityWeight))
  | .idle => (.idle, none)
  | .pendingOutstanding c e =>
    if e = c.delay then (.idle, some c.next_authorities)
    else (.pendingOutstanding c (e + 1), none)

/-- Modelled from the spec: ingesting a pending-change signal while idle —
the change becomes outstanding with elapsed count 0. -/
def signalPending (c : ScheduledChange) : SchedulerState :=
  .pendingOutstanding c 0

/-- The scheduler state after `n` finalized blocks have been processed
from state `s`. -/
def stateAfter (s : SchedulerState) : Nat → SchedulerState
  | 0 => s
  | n + 1 => (stepFinalized (stateAfter s n)).1

/-- The authority set activated while processing the `(n+1)`-th finalized
block after reaching state `s`, if any. -/
def activationAt (s : SchedulerState) (n : Nat) :
    Option (List (AuthorityId × AuthorityWeight)) :=
  (stepFinalized (stateAfter s n)).2

/-- A GRANDPA vote message (the shape shared by `Prevote<H, N>` and
`Precommit<H, N>` of the external `grandpa` crate): a target block hash and
a target block number. -/
structure Vote where
  targetHash : Bytes
  targetNumber : Nat
deriving DecidableEq

/-- Signature of a Grandpa authority (`pub type AuthoritySignature =
substrate_primitives::ed25519::Signature;`), modelled as its byte string. -/
abbrev AuthoritySignature := Bytes

/-- The `Equivocation<AuthorityId, Vote, AuthoritySignature>` shape
re-exported from the external `grandpa` crate, with the fields the spec
lists: round number, set id, the offending identity, and the two
conflicting (message, signature) pairs. -/
structure Equivocation where
  round : Nat
  setId : Nat
  identity : AuthorityId
  first : Vote × AuthoritySignature
  second : Vote × AuthoritySignature
deriving DecidableEq

/-- Modelled from the spec: the equivocation validation error taxonomy. -/
inductive EquivocationError where
  | malformedProof
  | invalidSignature
  | setMismatch
deriving DecidableEq

/-- Modelled from the spec: the equivocation proof validator — it lives
outside this crate.  Checks, in order: the two message targets differ
(else `malformedProof`); both signatures verify against the claimed
identity, round and set id (else `invalidSignature`); the identity belongs
to the supplied authority set (else `setMismatch`).  Signature
verification is the opaque capability `verify`. -/
def validate (verify : AuthorityId → Nat → Nat → Vote → AuthoritySignature → Bool)
    (authorities : List (AuthorityId × AuthorityWeight)) (e : Equivocation) :
    Except EquivocationError Unit :=
  if e.first.1 = e.second.1 then .error .malformedProof
  else if verify e.identity e.round e.setId e.first.1 e.first.2 &&
      verify e.identity e.round e.setId e.second.1 e.second.2 then
    if e.identity ∈ authorities.map Prod.fst then .ok ()
    else .error .setMismatch
  else .error .invalidSignature

/-- A deterministic SCALE-style encoding of a vote message: target hash as
a length-prefixed byte string, then the target number as a `u64`. -/
def encodeVote (v : Vote) : Bytes :=
  compactEncode v.targetHash.length ++ v.targetHash ++ leBytes 8 v.targetNumber

/-- A deterministic encoding of an `Equivocation`: round, set id, identity,
then the two (message, signature) pairs in order. -/
def encodeEquivocation (e : Equivocation) : Bytes :=
  leBytes 8 e.round ++ leBytes 8 e.setId ++ encodeAuthorityId e.identity ++
    encodeVote e.first.1 ++ e.first.2 ++ encodeVote e.second.1 ++ e.second.2

/-- Modelled from the spec: `construct_prevote_equivocation_report_call` —
the runtime-side implementation is outside this crate.  Serializes the
wrapped proof into the chain-submittable report payload, as a pure
function of the proof. -/
def construct_prevote_equivocation_report_call
    (proof : GrandpaEquivocationProof Equivocation) : Bytes :=
  encodeGrandpaEquivocationProof encodeEquivocation proof

/-- Modelled from the spec: `construct_precommit_equivocation_report_call`
— identical in structure to the prevote variant, per the spec's "implement
once, generic over the vote-message shape". -/
def construct_precommit_equivocation_report_call
    (proof : GrandpaEquivocationProof Equivocation) : Bytes :=
  encodeGrandpaEquivocationProof encodeEquivocation proof

/-- A concrete 32-byte authority identity used in closed instances. -/
def sampleId : AuthorityId := ⟨List.replicate 32 7, by decide⟩

theorem forcedIn_eq_some (item : DigestItem) (m : Nat) (c : ScheduledChange) :
    forcedIn item = some (m, c) ↔
      item.engine = GRANDPA_ENGINE_ID ∧ item.kind = DigestItemKind.forcedChange m c := by
  unfold forcedIn
  by_cases h : item.engine = GRANDPA_ENGINE_ID
  · rw [if_pos h]
    cases item.kind <;> simp [h]
  · rw [if_neg h]
    simp [h]

theorem pendingIn_none_of_foreign (item : DigestItem)
    (h : item.engine ≠ GRANDPA_ENGINE_ID) : pendingIn item = none := by
  unfold pendingIn
  rw [if_neg h]

theorem forcedIn_none_of_foreign (item : DigestItem)
    (h : item.engine ≠ GRANDPA_ENGINE_ID) : forcedIn item = none := by
  unfold forcedIn
  rw [if_neg h]

theorem findSome?_all_none {β : Type} (f : DigestItem → Option β) :
    ∀ d : Digest, (∀ i ∈ d, f i = none) → d.findSome? f = none := by
  intro d
  induction d with
  | nil => intro _; rfl
  | cons i t ih =>
    intro h
    have hi : f i = none := h i (List.mem_cons_self i t)
    have ht := ih fun x hx => h x (List.mem_cons_of_mem i hx)
    simp [List.findSome?_cons, hi, ht]

theorem findSome?_filter_tagged {β : Type} (f : DigestItem → Option β)
    (hf : ∀ i, i.engine ≠ GRANDPA_ENGINE_ID → f i = none) :
    ∀ d : Digest,
      (d.filter fun i => decide (i.engine = GRANDPA_ENGINE_ID)).findSome? f =
        d.findSome? f := by
  intro d
  induction d with
  | nil => rfl
  | cons i t ih =>
    by_cases h : i.engine = GRANDPA_ENGINE_ID
    · simp [List.filter_cons, h, List.findSome?_cons, ih]
    · have hnone := hf i h
      simp [List.filter_cons, h, List.findSome?_cons, hnone, ih]

theorem stateAfter_of_le (c : ScheduledChange) :
    ∀ n : Nat, n ≤ c.delay →
      stateAfter (signalPending c) n = SchedulerState.pendingOutstanding c n := by
  intro n
  induction n with
  | zero => intro _; rfl
  | succ n ih =>
    intro h
    have hn : n ≤ c.delay := Nat.le_of_succ_le h
    have hne : ¬ n = c.delay := by omega
    simp only [stateAfter, ih hn, stepFinalized, if_neg hne]

theorem stateAfter_of_gt (c : ScheduledChange) :
    ∀ n : Nat, c.delay < n → stateAfter (signalPending c) n = SchedulerState.idle := by
  intro n
  induction n with
  | zero => omega
  | succ n ih =>
    intro h
    by_cases hlt : c.delay < n
    · simp only [stateAfter, ih hlt, stepFinalized]
    · have heq : n = c.delay := by omega
      simp only [stateAfter, stateAfter_of_le c n (by omega), stepFinalized,
        if_pos heq]

/-- Claim C1: the extraction functions are deterministic and side-effect
free — on any two nodes, whatever their node-local external state, the same
digest (and the same outstanding-change record, the call's only other
argument) yields the same result for both `grandpa_pending_change` and
`grandpa_forced_change`. -/
theorem extractors_state_independent {σ : Type} (s1 s2 : σ)
    (o : Option OutstandingChange) (d : Digest) :
    grandpa_pending_change_on s1 o d = grandpa_pending_change_on s2 o d ∧
      grandpa_forced_change_on s1 o d = grandpa_forced_change_on s2 o d :=
  ⟨rfl, rfl⟩

/-- Claim C2: while an earlier change is outstanding and its delay has not
fully elapsed, `grandpa_pending_change` returns `none` on every digest;
its codomain is `Option ScheduledChange`, so the suppressed signal can
never surface as a thrown fault or error value. -/
theorem pending_change_suppressed (o : OutstandingChange) (d : Digest)
    (h : o.elapsed < o.delay) : grandpa_pending_change (some o) d = none := by
  unfold grandpa_pending_change
  rw [if_pos]
  unfold changeSuppressed
  simpa using h

theorem pending_change_suppressed_witness :
    grandpa_pending_change (some ⟨5, 2⟩)
      [⟨GRANDPA_ENGINE_ID, DigestItemKind.pendingChange ⟨[], 3⟩⟩] = none :=
  pending_change_suppressed ⟨5, 2⟩
    [⟨GRANDPA_ENGINE_ID, DigestItemKind.pendingChange ⟨[], 3⟩⟩] (by decide)

/-- Claim C3: a digest containing no item tagged with this gadget's engine
identifier yields `none` from both `grandpa_pending_change` and
`grandpa_forced_change`. -/
theorem extractors_none_of_no_tagged_items (o : Option OutstandingChange)
    (d : Digest) (h : ∀ item ∈ d, item.engine ≠ GRANDPA_ENGINE_ID) :
    grandpa_pending_change o d = none ∧ grandpa_forced_change o d = none := by
  constructor
  · unfold grandpa_pending_change
    split
    · rfl
    · exact findSome?_all_none pendingIn d fun i hi =>
        pendingIn_none_of_foreign i (h i hi)
  · unfold grandpa_forced_change
    split
    · rfl
    · exact findSome?_all_none forcedIn d fun i hi =>
        forcedIn_none_of_foreign i (h i hi)

theorem extractors_none_of_no_tagged_items_witness :
    grandpa_pending_change none
        [⟨[66, 65, 66, 69], DigestItemKind.pendingChange ⟨[], 0⟩⟩] = none ∧
      grandpa_forced_change none
        [⟨[66, 65, 66, 69], DigestItemKind.pendingChange ⟨[], 0⟩⟩] = none :=
  extractors_none_of_no_tagged_items none
    [⟨[66, 65, 66, 69], DigestItemKind.pendingChange ⟨[], 0⟩⟩] (by decide)

/-- Claim C4: `grandpa_forced_change` returns `some (m, c)` only when no
change is suppressed and the digest holds an engine-tagged forced-change
item recording median last-finalized block number `m` and scheduled change
`c`; when suppressed, or when no digest item carries a forced-change
signal, it returns `none`. -/
theorem forced_change_characterization (o : Option OutstandingChange) (d : Digest) :
    (∀ m c, grandpa_forced_change o d = some (m, c) →
      changeSuppressed o = false ∧
        ∃ item ∈ d, item.engine = GRANDPA_ENGINE_ID ∧
          item.kind = DigestItemKind.forcedChange m c) ∧
      ((changeSuppressed o = true ∨ ∀ item ∈ d, forcedIn item = none) →
        grandpa_forced_change o d = none) := by
  constructor
  · intro m c h
    unfold grandpa_forced_change at h
    by_cases hs : changeSuppressed o = true
    · rw [if_pos hs] at h
      exact absurd h (by simp)
    · rw [if_neg hs] at h
      refine ⟨by simpa using hs, ?_⟩
      obtain ⟨item, hmem, hitem⟩ := List.exists_of_findSome?_eq_some h
      exact ⟨item, hmem, (forcedIn_eq_some item m c).mp hitem⟩
  · intro h
    unfold grandpa_forced_change
    rcases h with h | h
    · rw [if_pos h]
    · split
      · rfl
      · exact findSome?_all_none forcedIn d h

theorem forced_change_characterization_witness :
    changeSuppressed (none : Option OutstandingChange) = false ∧
      ∃ item ∈ [⟨GRANDPA_ENGINE_ID, DigestItemKind.forcedChange 5 ⟨[], 2⟩⟩],
        DigestItem.engine item = GRANDPA_ENGINE_ID ∧
          DigestItem.kind item = DigestItemKind.forcedChange 5 ⟨[], 2⟩ :=
  (forced_change_characterization none
      [⟨GRANDPA_ENGINE_ID, DigestItemKind.forcedChange 5 ⟨[], 2⟩⟩]).1
    5 ⟨[], 2⟩ (by decide)

/-- Claim C5: from the signaling of a pending change, an activation is
emitted while processing the `(n+1)`-th finalized block exactly when `n`
(the elapsed counter at that point) equals the change's delay — so delay 0
activates on the very next finalized block, delay 1 after exactly one more
— and a step taken with the elapsed counter strictly below the delay never
activates. -/
theorem scheduler_activation (c : ScheduledChange) (n : Nat) :
    (activationAt (signalPending c) n = some c.next_authorities ↔ n = c.delay) ∧
      (n < c.delay →
        (stepFinalized (SchedulerState.pendingOutstanding c n)).2 = none) := by
  constructor
  · constructor
    · intro h
      by_cases hle : n ≤ c.delay
      · by_contra hne
        rw [activationAt, stateAfter_of_le c n hle] at h
        simp only [stepFinalized, if_neg hne] at h
        exact absurd h (by simp)
      · rw [activationAt, stateAfter_of_gt c n (by omega)] at h
        simp only [stepFinalized] at h
        exact absurd h (by simp)
    · intro h
      rw [activationAt, stateAfter_of_le c n (by omega)]
      simp [stepFinalized, if_pos h]
  · intro h
    have hne : ¬ n = c.delay := by omega
    simp [stepFinalized, if_neg hne]

theorem scheduler_activation_witness :
    activationAt (signalPending ⟨[], 1⟩) 1 = some [] ∧
      (stepFinalized (SchedulerState.pendingOutstanding ⟨[], 1⟩ 0)).2 = none :=
  ⟨(scheduler_activation ⟨[], 1⟩ 1).1.mpr rfl,
    (scheduler_activation ⟨[], 1⟩ 0).2 (by decide)⟩

/-- Claim C6: an equivocation proof whose two vote messages have identical
targets (same block hash and number) is rejected by `validate` with
`malformedProof`, whatever the verification capability says — in
particular even when both signatures verify. -/
theorem validate_identical_targets
    (verify : AuthorityId → Nat → Nat → Vote → AuthoritySignature → Bool)
    (authorities : List (AuthorityId × AuthorityWeight)) (e : Equivocation)
    (h : e.first.1 = e.second.1) :
    validate verify authorities e = Except.error EquivocationError.malformedProof := by
  unfold validate
  rw [if_pos h]

theorem validate_identical_targets_witness :
    validate (fun _ _ _ _ _ => true) []
        ⟨10, 5, sampleId, (⟨[1], 7⟩, [0]), (⟨[1], 7⟩, [0])⟩ =
      Except.error EquivocationError.malformedProof :=
  validate_identical_targets (fun _ _ _ _ _ => true) []
    ⟨10, 5, sampleId, (⟨[1], 7⟩, [0]), (⟨[1], 7⟩, [0])⟩ (by decide)

/-- Claim C7: report construction is deterministic — independently
reconstructed reports for equal `GrandpaEquivocationProof` values are
byte-identical, for both the prevote-kind and the precommit-kind
constructor. -/
theorem report_construction_deterministic
    (p q : GrandpaEquivocationProof Equivocation) (h : p = q) :
    construct_prevote_equivocation_report_call p =
        construct_prevote_equivocation_report_call q ∧
      construct_precommit_equivocation_report_call p =
        construct_precommit_equivocation_report_call q := by
  subst h
  exact ⟨rfl, rfl⟩

theorem report_construction_deterministic_witness :
    construct_prevote_equivocation_report_call
        ⟨5, 10, ⟨10, 5, sampleId, (⟨[1], 7⟩, [0]), (⟨[2], 8⟩, [1])⟩⟩ =
      construct_prevote_equivocation_report_call
        ⟨5, 10, ⟨10, 5, sampleId, (⟨[1], 7⟩, [0]), (⟨[2], 8⟩, [1])⟩⟩ ∧
    construct_precommit_equivocation_report_call
        ⟨5, 10, ⟨10, 5, sampleId, (⟨[1], 7⟩, [0]), (⟨[2], 8⟩, [1])⟩⟩ =
      construct_precommit_equivocation_report_call
        ⟨5, 10, ⟨10, 5, sampleId, (⟨[1], 7⟩, [0]), (⟨[2], 8⟩, [1])⟩⟩ :=
  report_construction_deterministic
    ⟨5, 10, ⟨10, 5, sampleId, (⟨[1], 7⟩, [0]), (⟨[2], 8⟩, [1])⟩⟩
    ⟨5, 10, ⟨10, 5, sampleId, (⟨[1], 7⟩, [0]), (⟨[2], 8⟩, [1])⟩⟩ rfl

/-- Claim C8: the gadget's digest items are identified by the single fixed
engine tag `GRANDPA_ENGINE_ID`, which is exactly 4 bytes long, and both
digest scans filter by this tag before interpreting item contents: removing
every item not carrying the tag changes neither extraction result. -/
theorem engine_id_four_bytes_and_scans_filter :
    GRANDPA_ENGINE_ID.length = 4 ∧
      ∀ (o : Option OutstandingChange) (d : Digest),
        grandpa_pending_change o
            (d.filter fun i => decide (i.engine = GRANDPA_ENGINE_ID)) =
          grandpa_pending_change o d ∧
        grandpa_forced_change o
            (d.filter fun i => decide (i.engine = GRANDPA_ENGINE_ID)) =
          grandpa_forced_change o d := by
  refine ⟨rfl, fun o d => ⟨?_, ?_⟩⟩
  · unfold grandpa_pending_change
    rw [findSome?_filter_tagged pendingIn pendingIn_none_of_foreign d]
  · unfold grandpa_forced_change
    rw [findSome?_filter_tagged forcedIn forcedIn_none_of_foreign d]

/-- Claim C9: authority weights are unsigned integers and zero is a legal
weight — a serialized authority set containing a zero-weight authority
still carries that `(identity, weight)` pair: decoding the serialization
returns the set with the pair present, never omitted. -/
theorem zero_weight_authority_serialized
    (l : List (AuthorityId × AuthorityWeight)) (a : AuthorityId) (rest : Bytes)
    (hmem : (a, 0) ∈ l) (hlen : l.length < 2 ^ 32)
    (hw : ∀ p ∈ l, p.2 < 2 ^ 64) :
    ∃ dl, decodeListWith decodeAuthorityPair
        (encodeListWith encodeAuthorityPair l ++ rest) = some (dl, rest) ∧
      (a, 0) ∈ dl := by
  refine ⟨l, ?_, hmem⟩
  exact decodeListWith_encode decodeAuthorityPair encodeAuthorityPair l
    (fun p hp r => decodeAuthorityPair_encode p (hw p hp) r) hlen rest

theorem zero_weight_authority_serialized_witness :
    ∃ dl, decodeListWith decodeAuthorityPair
        (encodeListWith encodeAuthorityPair [(sampleId, 0)] ++ []) =
          some (dl, []) ∧
      (sampleId, 0) ∈ dl :=
  zero_weight_authority_serialized [(sampleId, 0)] sampleId []
    (by decide) (by decide) (by decide)

/-- Claim C10: the codec round-trips — decoding the encoding of any
in-bounds `ScheduledChange` recovers it exactly, and for any wrapped
equivocation type with a lawful codec, decoding the encoding of a
`GrandpaEquivocationProof` recovers every field (`set_id`, `round`,
`equivocation`). -/
theorem codec_roundtrip :
    (∀ (c : ScheduledChange) (rest : Bytes), c.wf →
      decodeScheduledChange (encodeScheduledChange c ++ rest) = some (c, rest)) ∧
      (∀ (E : Type) (encE : E → Bytes) (decE : Bytes → Option (E × Bytes)),
        (∀ e rest, decE (encE e ++ rest) = some (e, rest)) →
        ∀ (p : GrandpaEquivocationProof E) (rest : Bytes),
          p.set_id < 2 ^ 64 → p.round < 2 ^ 64 →
          decodeGrandpaEquivocationProof decE
              (encodeGrandpaEquivocationProof encE p ++ rest) = some (p, rest)) :=
  ⟨fun c rest h => decodeScheduledChange_encode c h rest,
    fun _ encE decE hlaw p rest hs hr =>
      decodeGrandpaEquivocationProof_encode encE decE hlaw p hs hr rest⟩

theorem codec_roundtrip_witness :
    decodeScheduledChange
        (encodeScheduledChange ⟨[(sampleId, 3)], 7⟩ ++ []) =
      some (⟨[(sampleId, 3)], 7⟩, []) ∧
    decodeGrandpaEquivocationProof (fun l => some ((), l))
        (encodeGrandpaEquivocationProof (fun _ => []) ⟨5, 10, ()⟩ ++ []) =
      some (⟨5, 10, ()⟩, []) :=
  ⟨codec_roundtrip.1 ⟨[(sampleId, 3)], 7⟩ [] (by decide),
    codec_roundtrip.2 Unit (fun _ => []) (fun l => some ((), l))
      (fun _ _ => rfl) ⟨5, 10, ()⟩ [] (by decide) (by decide)⟩

end Grandpa
